import Mathlib

/- Shallow embedding of the repository: three Streamlit data utilities.
   gen_gl.py (reconciler), Gen_database.py (merger), app.py (query runner).
   Python strings are modelled as lists of characters. -/

/- ===== generic string utilities (models of the Python library calls) ===== -/

/-- ASCII decimal digit test, modelling the regex digit class on the ASCII
    filenames involved. -/
def isDigitChar (c : Char) : Bool := decide ('0' ≤ c) && decide (c ≤ '9')

/-- Whitespace test modelling the default character set of Python str.strip. -/
def isWsChar (c : Char) : Bool :=
  c = ' ' || c = '\t' || c = '\n' || c = '\r' || c = '\x0b' || c = '\x0c'

/-- Python str.strip with no arguments: drop whitespace from both ends. -/
def stripWs (l : List Char) : List Char :=
  ((l.dropWhile isWsChar).reverse.dropWhile isWsChar).reverse

/-- Python str.rstrip applied to one character: drop that character from the
    right end. -/
def rstripChar (ch : Char) (l : List Char) : List Char :=
  (l.reverse.dropWhile (fun c => c = ch)).reverse

/-- Python str.lower, restricted to the ASCII range exercised by the code. -/
def lowerStr (l : List Char) : List Char := l.map Char.toLower

/-- Tests whether the first list is a leading segment of the second. -/
def prefixMatch : List Char → List Char → Bool
  | [], _ => true
  | _ :: _, [] => false
  | a :: as, b :: bs => a = b && prefixMatch as bs

/-- Python substring containment (the in operator on str): the needle must
    occur as a prefix at some position of the haystack. -/
def containsSub (needle : List Char) : List Char → Bool
  | [] => needle.isEmpty
  | c :: rest => prefixMatch needle (c :: rest) || containsSub needle rest

/-- Tests whether the first list is a trailing segment of the second,
    modelling Python str.endswith. -/
def suffixMatch (suf l : List Char) : Bool := prefixMatch suf.reverse l.reverse

/-- Python str.replace for a non-empty needle: replace each non-overlapping
    occurrence, scanning from the left. -/
def replaceAll (needle repl : List Char) : List Char → List Char
  | [] => []
  | c :: rest =>
    if h : needle ≠ [] ∧ prefixMatch needle (c :: rest) = true then
      repl ++ replaceAll needle repl ((c :: rest).drop needle.length)
    else
      c :: replaceAll needle repl rest
termination_by l => l.length
decreasing_by
  · simp only [List.length_drop]
    have hn : 0 < needle.length := List.length_pos.mpr h.1
    simp only [List.length_cons]
    omega
  · simp

/-- os.path.basename for POSIX paths: the part after the last slash. -/
def basename (l : List Char) : List Char :=
  (l.reverse.takeWhile (fun c => ¬ c = '/')).reverse

/-- os.path.join of a directory and a relative file name, as exercised by the
    code (the file name never starts with a slash). -/
def joinPath (dir fn : List Char) : List Char := dir ++ '/' :: fn

/-- Index of the last dot of a list, if any. -/
def lastDotIdx (l : List Char) : Option Nat :=
  (l.reverse.findIdx? (fun c => c = '.')).map (fun j => l.length - 1 - j)

/-- Root part of os.path.splitext: cut at the last dot, except that dots
    leading the name do not start an extension. -/
def splitextRoot (l : List Char) : List Char :=
  let k := (l.takeWhile (fun c => c = '.')).length
  match lastDotIdx (l.drop k) with
  | none => l
  | some i => l.take (k + i)

/-- Decimal digit character for a value below ten. -/
def digitChar : Nat → Char
  | 0 => '0' | 1 => '1' | 2 => '2' | 3 => '3' | 4 => '4'
  | 5 => '5' | 6 => '6' | 7 => '7' | 8 => '8' | _ => '9'

/-- Decimal digits of a positive number, least significant first. -/
def natCharsRev : Nat → List Char
  | 0 => []
  | n + 1 => digitChar ((n + 1) % 10) :: natCharsRev ((n + 1) / 10)
decreasing_by exact Nat.div_lt_self (Nat.succ_pos n) (by norm_num)

/-- Decimal rendering of a natural number, modelling str applied to a
    Python int. -/
def natChars (n : Nat) : List Char :=
  if n = 0 then ['0'] else (natCharsRev n).reverse

/-- Numeric value of a digit character. -/
def chrVal (c : Char) : Nat := c.toNat - 48

/-- Value of a least-significant-first digit list. -/
def valRev : List Char → Nat
  | [] => 0
  | c :: cs => chrVal c + 10 * valRev cs

/-- Python int applied to a decimal digit string (most significant first). -/
def decodeDigits (l : List Char) : Nat :=
  l.foldl (fun acc c => acc * 10 + chrVal c) 0

/-- Lexicographic strict comparison of character lists by code point,
    modelling Python str comparison. -/
def lexLt : List Char → List Char → Bool
  | [], [] => false
  | [], _ :: _ => true
  | _ :: _, [] => false
  | a :: as, b :: bs => if a = b then lexLt as bs else decide (a.toNat < b.toNat)

/-- Last element of a list, if any. -/
def lastOpt : List Char × List Char → List (List Char × List Char) → Option (List Char × List Char)
  | x, [] => some x
  | _, y :: ys => lastOpt y ys

/-- Last element of a list of walk entries, if any. -/
def lastEntry : List (List Char × List Char) → Option (List Char × List Char)
  | [] => none
  | x :: xs => lastOpt x xs

/- ===== gen_gl.py: parse_dates_from_filename ===== -/

/-- Attempt, at the head of the list, the tail of the D pattern: a letter D
    (case-insensitive) followed by six ASCII digits; yields the six digits. -/
def matchD (l : List Char) : Option (List Char) :=
  match l with
  | [] => none
  | c :: rest =>
    if (c = 'D' ∨ c = 'd') ∧ (rest.take 6).length = 6 ∧ (rest.take 6).all isDigitChar = true then
      some (rest.take 6)
    else none

/-- re.search of the D pattern with an optional dash or underscore before the
    letter: each start position is tried from the left; at a start position
    the optional piece is tried greedily, then empty. -/
def searchDPattern : List Char → Option (List Char)
  | [] => none
  | c :: rest =>
    if c = '-' ∨ c = '_' then
      match matchD rest with
      | some ds => some ds
      | none =>
        match matchD (c :: rest) with
        | some ds => some ds
        | none => searchDPattern rest
    else
      match matchD (c :: rest) with
      | some ds => some ds
      | none => searchDPattern rest

/-- Claim-side reading of the D extraction: the six digits following the
    first occurrence of a case-insensitive D that six digits follow. -/
def dDateSpecSearch : List Char → Option (List Char)
  | [] => none
  | c :: rest =>
    match matchD (c :: rest) with
    | some ds => some ds
    | none => dDateSpecSearch rest

/-- Attempt, at the head of the list, the JV pattern: letters J and V
    (case-insensitive) followed by eight ASCII digits; yields the digits. -/
def matchJV (l : List Char) : Option (List Char) :=
  match l with
  | c1 :: c2 :: rest =>
    if (c1 = 'J' ∨ c1 = 'j') ∧ (c2 = 'V' ∨ c2 = 'v') ∧ (rest.take 8).length = 8 ∧ (rest.take 8).all isDigitChar = true then
      some (rest.take 8)
    else none
  | _ => none

/-- re.search of the JV pattern: each start position tried from the left. -/
def searchJVPattern : List Char → Option (List Char)
  | [] => none
  | c :: rest =>
    match matchJV (c :: rest) with
    | some ds => some ds
    | none => searchJVPattern rest

/-- parse_dates_from_filename from gen_gl.py: the D-date via the first match
    of the D pattern on the basename, and the JV token pasted from the three
    two-character slices 2:4, 4:6 and 6:8 of the eight JV digits, exactly as
    the source writes it. -/
def parse_dates_from_filename (filename : List Char) : Option (List Char) × Option (List Char) :=
  let base := basename filename
  let d := searchDPattern base
  let jv := (searchJVPattern base).map
    (fun full => (full.drop 2).take 2 ++ ((full.drop 4).take 2 ++ (full.drop 6).take 2))
  (d, jv)

/-- Claim-side reading of the same extraction: first D-plus-six-digits gives
    the D-date, and the JV token is the last six of the eight digits after
    the first JV. -/
def parseSpecWords (filename : List Char) : Option (List Char) × Option (List Char) :=
  let base := basename filename
  (dDateSpecSearch base, (searchJVPattern base).map (fun full => full.drop (full.length - 6)))

/- ===== helper lemmas on the parsers ===== -/

theorem matchD_none_of_head (c : Char) (rest : List Char)
    (hc : ¬ (c = 'D' ∨ c = 'd')) : matchD (c :: rest) = none := by
  simp only [matchD]
  rw [if_neg]
  intro h
  exact hc h.1

theorem searchD_eq_spec : ∀ l, searchDPattern l = dDateSpecSearch l := by
  intro l
  induction l with
  | nil => rfl
  | cons c rest ih =>
    by_cases hc : c = '-' ∨ c = '_'
    · have hnotd : ¬ (c = 'D' ∨ c = 'd') := by
        rcases hc with h | h <;> subst h <;> decide
      have hmd : matchD (c :: rest) = none := matchD_none_of_head c rest hnotd
      simp only [searchDPattern, dDateSpecSearch, if_pos hc, hmd]
      cases hrest : matchD rest with
      | some ds =>
        cases rest with
        | nil => simp [matchD] at hrest
        | cons c2 r2 => simp only [dDateSpecSearch, hrest]
      | none => exact ih
    · simp only [searchDPattern, dDateSpecSearch, if_neg hc]
      cases hmd : matchD (c :: rest) with
      | some ds => rfl
      | none => exact ih

theorem matchJV_shape (l full : List Char) (h : matchJV l = some full) :
    full.length = 8 ∧ full.all isDigitChar = true := by
  match l with
  | [] => exact Option.noConfusion h
  | [c] => exact Option.noConfusion h
  | c1 :: c2 :: rest =>
    simp only [matchJV] at h
    split at h
    · rename_i hcond
      cases h
      exact ⟨hcond.2.2.1, hcond.2.2.2⟩
    · cases h

theorem searchJV_shape : ∀ l full, searchJVPattern l = some full →
    full.length = 8 ∧ full.all isDigitChar = true := by
  intro l
  induction l with
  | nil => intro full h; exact Option.noConfusion h
  | cons c rest ih =>
    intro full h
    simp only [searchJVPattern] at h
    cases hm : matchJV (c :: rest) with
    | some ds =>
      rw [hm] at h
      cases h
      exact matchJV_shape (c :: rest) full hm
    | none =>
      rw [hm] at h
      exact ih full h

theorem slices_eq_drop2 (l : List Char) (h : l.length = 8) :
    (l.drop 2).take 2 ++ ((l.drop 4).take 2 ++ (l.drop 6).take 2) = l.drop (l.length - 6) := by
  match l, h with
  | [a, b, c, d, e, f, g, k], _ => rfl

/-- C4: the key derivation extracts as D-date the six digits following the
    first case-insensitive occurrence of D (optionally preceded by a dash or
    underscore) in the basename, or none when no such pattern occurs, and as
    JV token the last six of the eight digits following the first
    case-insensitive JV, or none when no such pattern occurs. -/
theorem c4_parse_dates_matches_spec :
    ∀ fn, parse_dates_from_filename fn = parseSpecWords fn := by
  intro fn
  simp only [parse_dates_from_filename, parseSpecWords]
  refine Prod.ext ?_ ?_
  · exact searchD_eq_spec (basename fn)
  · cases hjv : searchJVPattern (basename fn) with
    | none => rfl
    | some full =>
      have hs := searchJV_shape (basename fn) full hjv
      have h2 := slices_eq_drop2 full hs.1
      simp [h2]

/- ===== decimal rendering lemmas ===== -/

theorem digitChar_spec (k : Nat) (hk : k < 10) :
    chrVal (digitChar k) = k ∧ digitChar k ≠ '|' := by
  interval_cases k <;> exact ⟨by decide, by decide⟩

theorem valRev_natCharsRev : ∀ n, valRev (natCharsRev n) = n := by
  intro n
  induction n using Nat.strong_induction_on with
  | _ n ih =>
    match n with
    | 0 => simp [natCharsRev, valRev]
    | m + 1 =>
      rw [natCharsRev]
      simp only [valRev]
      have h10 : (m + 1) % 10 < 10 := Nat.mod_lt _ (by norm_num)
      rw [(digitChar_spec _ h10).1,
        ih ((m + 1) / 10) (Nat.div_lt_self (Nat.succ_pos m) (by norm_num))]
      omega

theorem natChars_inj (m n : Nat) (h : natChars m = natChars n) : m = n := by
  by_cases hm : m = 0 <;> by_cases hn : n = 0
  · omega
  · subst hm
    simp only [natChars, if_pos rfl, if_neg hn] at h
    have h2 : natCharsRev n = ['0'] := by
      have := congrArg List.reverse h
      simpa using this.symm
    have h3 := valRev_natCharsRev n
    rw [h2] at h3
    simp [valRev, chrVal] at h3
    omega
  · subst hn
    simp only [natChars, if_pos rfl, if_neg hm] at h
    have h2 : natCharsRev m = ['0'] := by
      have := congrArg List.reverse h
      simpa using this
    have h3 := valRev_natCharsRev m
    rw [h2] at h3
    simp [valRev, chrVal] at h3
    omega
  · simp only [natChars, if_neg hm, if_neg hn] at h
    have h2 : natCharsRev m = natCharsRev n := List.reverse_injective h
    have h3 := valRev_natCharsRev m
    rw [h2, valRev_natCharsRev n] at h3
    omega

theorem natCharsRev_noBar : ∀ n c, c ∈ natCharsRev n → c ≠ '|' := by
  intro n
  induction n using Nat.strong_induction_on with
  | _ n ih =>
    match n with
    | 0 => intro c hc; exact absurd hc (by simp [natCharsRev])
    | m + 1 =>
      intro c hc
      rw [natCharsRev] at hc
      rcases List.mem_cons.mp hc with h | h
      · subst h
        exact (digitChar_spec _ (Nat.mod_lt _ (by norm_num))).2
      · exact ih ((m + 1) / 10) (Nat.div_lt_self (Nat.succ_pos m) (by norm_num)) c h

theorem natChars_noBar (n : Nat) (c : Char) (hc : c ∈ natChars n) : c ≠ '|' := by
  by_cases hn : n = 0
  · subst hn
    simp [natChars] at hc
    subst hc; decide
  · simp [natChars, hn] at hc
    exact natCharsRev_noBar n c hc

/- ===== unique separator splitting ===== -/

theorem splitFirst (p : List Char) : ∀ q u v : List Char, (∀ c ∈ p, c ≠ '|') →
    (∀ c ∈ q, c ≠ '|') → p ++ '|' :: u = q ++ '|' :: v → p = q ∧ u = v := by
  induction p with
  | nil =>
    intro q u v _ hq h
    cases q with
    | nil => simpa using h
    | cons b bs =>
      simp only [List.nil_append, List.cons_append, List.cons.injEq] at h
      exact absurd h.1.symm (hq b (by simp))
  | cons a as ih =>
    intro q u v hp hq h
    cases q with
    | nil =>
      simp only [List.cons_append, List.nil_append, List.cons.injEq] at h
      exact absurd h.1 (hp a (by simp))
    | cons b bs =>
      simp only [List.cons_append, List.cons.injEq] at h
      obtain ⟨hab, hrest⟩ := h
      obtain ⟨h1, h2⟩ := ih bs u v (fun c hc => hp c (by simp [hc]))
        (fun c hc => hq c (by simp [hc])) hrest
      exact ⟨by rw [hab, h1], h2⟩

theorem splitLast (a b s t : List Char) (hs : ∀ c ∈ s, c ≠ '|') (ht : ∀ c ∈ t, c ≠ '|')
    (h : a ++ '|' :: s = b ++ '|' :: t) : a = b ∧ s = t := by
  have h2 : s.reverse ++ '|' :: a.reverse = t.reverse ++ '|' :: b.reverse := by
    have h3 := congrArg List.reverse h
    simp only [List.reverse_append, List.reverse_cons] at h3
    simpa [List.append_assoc] using h3
  obtain ⟨hst, hab⟩ := splitFirst s.reverse t.reverse a.reverse b.reverse
    (fun c hc => hs c (List.mem_reverse.mp hc))
    (fun c hc => ht c (List.mem_reverse.mp hc)) h2
  exact ⟨List.reverse_injective hab, List.reverse_injective hst⟩

/- ===== gen_gl.py: the composite search key ===== -/

/-- Number of occurrences of a value in a list of values. -/
def countOcc (x : List Char) (l : List (List Char)) : Nat :=
  (l.filter (fun y => y = x)).length

/-- Composite search key column, modelling the source expression
    base plus bar plus (groupby(base).cumcount() plus one) rendered as text,
    in row order: each row keys its base value, a bar, and one plus the
    number of earlier rows carrying the same base value. -/
def searchKeysAux (pre : List (List Char)) : List (List Char) → List (List Char)
  | [] => []
  | b :: rest => (b ++ '|' :: natChars (countOcc b pre + 1)) :: searchKeysAux (pre ++ [b]) rest

/-- Composite search keys of a whole base column. -/
def searchKeys (bases : List (List Char)) : List (List Char) := searchKeysAux [] bases

theorem countOcc_append (x : List Char) (l1 l2 : List (List Char)) :
    countOcc x (l1 ++ l2) = countOcc x l1 + countOcc x l2 := by
  simp [countOcc, List.filter_append]

theorem countOcc_self_single (b : List Char) : countOcc b [b] = 1 := by
  simp [countOcc]

theorem searchKeysAux_mem_shape : ∀ bases pre key, key ∈ searchKeysAux pre bases →
    ∃ b m, key = b ++ '|' :: natChars m ∧ countOcc b pre < m := by
  intro bases
  induction bases with
  | nil => intro pre key hk; exact absurd hk (by simp [searchKeysAux])
  | cons b rest ih =>
    intro pre key hk
    simp only [searchKeysAux, List.mem_cons] at hk
    rcases hk with h | h
    · exact ⟨b, countOcc b pre + 1, h, Nat.lt_succ_self _⟩
    · obtain ⟨b2, m, hkey, hlt⟩ := ih (pre ++ [b]) key h
      refine ⟨b2, m, hkey, ?_⟩
      rw [countOcc_append] at hlt
      omega

theorem searchKeysAux_nodup : ∀ bases pre, (searchKeysAux pre bases).Nodup := by
  intro bases
  induction bases with
  | nil => intro pre; simp [searchKeysAux]
  | cons b rest ih =>
    intro pre
    simp only [searchKeysAux, List.nodup_cons]
    refine ⟨?_, ih (pre ++ [b])⟩
    intro hmem
    obtain ⟨b2, m, hkey, hlt⟩ := searchKeysAux_mem_shape rest (pre ++ [b]) _ hmem
    obtain ⟨hb, hnc⟩ := splitLast b b2 _ _
      (fun c hc => natChars_noBar _ c hc) (fun c hc => natChars_noBar _ c hc) hkey
    have hm : countOcc b pre + 1 = m := natChars_inj _ _ hnc
    rw [← hb, countOcc_append, countOcc_self_single] at hlt
    omega

theorem searchKeysAux_getElem? : ∀ bases pre i,
    (searchKeysAux pre bases)[i]? =
      (bases[i]?).map
        (fun b => b ++ '|' :: natChars (countOcc b pre + countOcc b (bases.take (i + 1)))) := by
  intro bases
  induction bases with
  | nil => intro pre i; simp [searchKeysAux]
  | cons b rest ih =>
    intro pre i
    cases i with
    | zero =>
      simp only [searchKeysAux, List.getElem?_cons_zero, List.take, Option.map_some']
      rw [countOcc_self_single]
    | succ i =>
      simp only [searchKeysAux, List.getElem?_cons_succ]
      rw [ih (pre ++ [b]) i]
      cases hr : rest[i]? with
      | none => rfl
      | some x =>
        simp only [Option.map_some']
        have harith : countOcc x (pre ++ [b]) + countOcc x (rest.take (i + 1)) =
            countOcc x pre + countOcc x ((b :: rest).take (i + 1 + 1)) := by
          rw [countOcc_append]
          have : (b :: rest).take (i + 1 + 1) = b :: rest.take (i + 1) := rfl
          rw [this]
          have hcons : countOcc x (b :: rest.take (i + 1)) =
              countOcc x [b] + countOcc x (rest.take (i + 1)) := by
            rw [← countOcc_append]; rfl
          rw [hcons]
          omega
        rw [harith]

/-- C2: for either loaded table the synthesized composite search key of each
    row equals the row's base value (column index 8 for the TLF table, the
    Seq column for the GL table), then a bar, then the one-based count of
    occurrences of that base value from the first row up to and including
    that row, in row order; consequently the composite keys within one table
    are pairwise distinct. -/
theorem c2_composite_search_keys (bases : List (List Char)) :
    (∀ i : Nat, (searchKeys bases)[i]? =
      (bases[i]?).map (fun b => b ++ '|' :: natChars (countOcc b (bases.take (i + 1))))) ∧
    (searchKeys bases).Nodup := by
  constructor
  · intro i
    have h := searchKeysAux_getElem? bases [] i
    simpa [searchKeys, countOcc] using h
  · exact searchKeysAux_nodup bases []

/- ===== gen_gl.py: pick_latest_files_by_duplicate_d_date ===== -/

/-- Recognised source file extensions (valid_exts in the source). -/
def validExts : List (List Char) :=
  [".csv".data, ".trf".data, ".txt".data, ".xls".data, ".xlsx".data]

/-- fn.lower().endswith(valid_exts) from the source. -/
def validExt (fn : List Char) : Bool :=
  validExts.any (fun e => suffixMatch e (lowerStr fn))

/-- D-date component of parse_dates_from_filename. -/
def parseD (fn : List Char) : Option (List Char) := (parse_dates_from_filename fn).1

/-- JV component of parse_dates_from_filename. -/
def parseJV (fn : List Char) : Option (List Char) := (parse_dates_from_filename fn).2

/-- The jv_int computation of the source: int(jv_date) when jv_date is
    non-empty and all digits, otherwise minus one. -/
def jvIntOf (jv : Option (List Char)) : Int :=
  match jv with
  | none => -1
  | some s => if s ≠ [] ∧ s.all isDigitChar = true then (decodeDigits s : Int) else -1

/-- Numeric JV value a file name yields. -/
def jvIntFn (fn : List Char) : Int := jvIntOf (parseJV fn)

/-- Dictionary value held in chosen, with the transient numeric field. -/
structure EntryI where
  file : List Char
  dDate : Option (List Char)
  jvDate : Option (List Char)
  jvInt : Int
deriving DecidableEq, Repr

/-- Per-file record of the result list, after the transient field is
    popped. -/
structure PickedFile where
  file : List Char
  dDate : Option (List Char)
  jvDate : Option (List Char)
deriving DecidableEq, Repr

/-- Drop the transient numeric field. -/
def toPicked (e : EntryI) : PickedFile := ⟨e.file, e.dDate, e.jvDate⟩

/-- Dictionary value the loop builds for a file name. -/
def mkEntryI (folder fn : List Char) : EntryI :=
  ⟨joinPath folder fn, parseD fn, parseJV fn, jvIntOf (parseJV fn)⟩

/-- Key used for files without a D-date. -/
def noDKey (fn : List Char) : List Char := "__NO_D__::".data ++ fn

/-- Ordered association list lookup, modelling dict indexing. -/
def lookupA : List (List Char × EntryI) → List Char → Option EntryI
  | [], _ => none
  | (k, v) :: rest, key => if k = key then some v else lookupA rest key

/-- Ordered association list update, modelling dict assignment: replace in
    place when the key exists, append otherwise. -/
def setAssoc : List (List Char × EntryI) → List Char → EntryI → List (List Char × EntryI)
  | [], key, v => [(key, v)]
  | (k, w) :: rest, key, v =>
    if k = key then (key, v) :: rest else (k, w) :: setAssoc rest key v

/-- One iteration of the selection loop of
    pick_latest_files_by_duplicate_d_date. -/
def pickStep (folder : List Char) (acc : List (List Char × EntryI)) (fn : List Char) :
    List (List Char × EntryI) :=
  if validExt fn = true then
    let e := mkEntryI folder fn
    match parseD fn with
    | none => setAssoc acc (noDKey fn) e
    | some dd =>
      match lookupA acc dd with
      | none => setAssoc acc dd e
      | some old => if e.jvInt > old.jvInt then setAssoc acc dd e else acc
  else acc

/-- Stable insertion for the final sort of the results by lower-cased
    basename. -/
def insertPicked (x : PickedFile) : List PickedFile → List PickedFile
  | [] => [x]
  | y :: ys =>
    if lexLt (lowerStr (basename y.file)) (lowerStr (basename x.file)) = true then
      y :: insertPicked x ys
    else x :: y :: ys

/-- Stable sort of the results by lower-cased basename, modelling the final
    list.sort call; the claims only use that it permutes its input. -/
def sortPicked : List PickedFile → List PickedFile
  | [] => []
  | x :: xs => insertPicked x (sortPicked xs)

/-- pick_latest_files_by_duplicate_d_date from gen_gl.py. -/
def pick_latest_files_by_duplicate_d_date (folder : List Char)
    (files : List (List Char)) : List PickedFile :=
  sortPicked ((files.foldl (pickStep folder) []).map (fun kv => toPicked kv.2))

/-- Claim-side grouping: the files of the list with a recognised extension
    that yield the given D-date. -/
def sourceGroup (files : List (List Char)) (dd : List Char) : List (List Char) :=
  files.filter (fun fn => validExt fn && decide (parseD fn = some dd))

/-- Claim-side first-seen maximisation step over the numeric JV value. -/
def argmaxStep (best : Option (List Char)) (fn : List Char) : Option (List Char) :=
  match best with
  | none => some fn
  | some b => if jvIntFn fn > jvIntFn b then some fn else some b

/-- Claim-side pick: the first file of the group attaining the largest
    numeric JV value. -/
def argmaxFirst (l : List (List Char)) : Option (List Char) := l.foldl argmaxStep none

/-- Six decimal digits, the shape of every extracted D-date. -/
def isDigits6 (s : List Char) : Prop := s.length = 6 ∧ s.all isDigitChar = true

/-- Keys of an ordered association list. -/
def keysOf (acc : List (List Char × EntryI)) : List (List Char) := acc.map Prod.fst

/-- Invariant of the selection loop relating the dictionary to the processed
    part of the file list. -/
def PickInv (folder : List Char) (pre : List (List Char))
    (acc : List (List Char × EntryI)) : Prop :=
  (∀ dd : List Char, isDigits6 dd →
      lookupA acc dd = (argmaxFirst (sourceGroup pre dd)).map (mkEntryI folder)) ∧
  (∀ fn : List Char,
      lookupA acc (noDKey fn) =
        (if fn ∈ pre ∧ validExt fn = true ∧ parseD fn = none
         then some (mkEntryI folder fn) else none)) ∧
  (∀ k ∈ keysOf acc, isDigits6 k ∨ ∃ fn, k = noDKey fn) ∧
  (keysOf acc).Nodup

/- ===== helper lemmas for the selection proof ===== -/

theorem matchD_shape (l ds : List Char) (h : matchD l = some ds) :
    ds.length = 6 ∧ ds.all isDigitChar = true := by
  match l with
  | [] => exact Option.noConfusion h
  | c :: rest =>
    simp only [matchD] at h
    split at h
    · rename_i hcond
      cases h
      exact ⟨hcond.2.1, hcond.2.2⟩
    · cases h

theorem dDateSpec_shape : ∀ l ds, dDateSpecSearch l = some ds →
    ds.length = 6 ∧ ds.all isDigitChar = true := by
  intro l
  induction l with
  | nil => intro ds h; exact Option.noConfusion h
  | cons c rest ih =>
    intro ds h
    simp only [dDateSpecSearch] at h
    cases hm : matchD (c :: rest) with
    | some x =>
      rw [hm] at h
      cases h
      exact matchD_shape (c :: rest) ds hm
    | none =>
      rw [hm] at h
      exact ih ds h

theorem parseD_shape (fn dd : List Char) (h : parseD fn = some dd) : isDigits6 dd := by
  have h2 : dDateSpecSearch (basename fn) = some dd := by
    rw [← searchD_eq_spec]
    exact h
  exact dDateSpec_shape (basename fn) dd h2

theorem noDKey_length (fn : List Char) : (noDKey fn).length = fn.length + 10 := by
  simp [noDKey]

theorem noDKey_ne_digits6 (fn dd : List Char) (h : isDigits6 dd) : dd ≠ noDKey fn := by
  intro he
  have h1 : dd.length = 6 := h.1
  rw [he, noDKey_length] at h1
  omega

theorem noDKey_inj (fn1 fn2 : List Char) (h : noDKey fn1 = noDKey fn2) : fn1 = fn2 :=
  List.append_cancel_left h

theorem lookupA_setAssoc_self (acc : List (List Char × EntryI)) (k : List Char) (v : EntryI) :
    lookupA (setAssoc acc k v) k = some v := by
  induction acc with
  | nil => simp [setAssoc, lookupA]
  | cons p rest ih =>
    obtain ⟨k2, w⟩ := p
    by_cases hk : k2 = k
    · simp [setAssoc, hk, lookupA]
    · simp [setAssoc, hk, lookupA, ih]

theorem lookupA_setAssoc_ne (acc : List (List Char × EntryI)) (k k2 : List Char) (v : EntryI)
    (h : k2 ≠ k) : lookupA (setAssoc acc k v) k2 = lookupA acc k2 := by
  have h2 : ¬ k = k2 := fun he => h he.symm
  induction acc with
  | nil => simp [setAssoc, lookupA, h2]
  | cons p rest ih =>
    obtain ⟨k3, w⟩ := p
    by_cases hk : k3 = k
    · subst hk
      simp [setAssoc, lookupA, h2]
    · simp only [setAssoc, if_neg hk, lookupA]
      by_cases hk2 : k3 = k2
      · simp [hk2]
      · simp [hk2, ih]

theorem setAssoc_cons_eq (rest : List (List Char × EntryI)) (k : List Char) (w v : EntryI) :
    setAssoc ((k, w) :: rest) k v = (k, v) :: rest := by
  simp [setAssoc]

theorem setAssoc_cons_ne (rest : List (List Char × EntryI)) (k3 k : List Char) (w v : EntryI)
    (h : k3 ≠ k) : setAssoc ((k3, w) :: rest) k v = (k3, w) :: setAssoc rest k v := by
  simp [setAssoc, h]

theorem lookupA_some_mem (acc : List (List Char × EntryI)) (k : List Char) (v : EntryI)
    (h : lookupA acc k = some v) : (k, v) ∈ acc := by
  induction acc with
  | nil => exact Option.noConfusion h
  | cons p rest ih =>
    obtain ⟨k2, w⟩ := p
    simp only [lookupA] at h
    by_cases hk : k2 = k
    · rw [if_pos hk] at h
      cases h
      subst hk
      exact List.mem_cons.mpr (Or.inl rfl)
    · rw [if_neg hk] at h
      exact List.mem_cons_of_mem _ (ih h)

theorem mem_lookupA_of_nodup (acc : List (List Char × EntryI)) (k : List Char) (v : EntryI)
    (hn : (keysOf acc).Nodup) (h : (k, v) ∈ acc) : lookupA acc k = some v := by
  induction acc with
  | nil => exact absurd h (by simp)
  | cons p rest ih =>
    obtain ⟨k2, w⟩ := p
    simp only [keysOf, List.map_cons, List.nodup_cons] at hn
    rcases List.mem_cons.mp h with he | hm
    · cases he
      simp [lookupA]
    · have hk : k2 ≠ k := by
        intro he2
        subst he2
        have h3 : k2 ∈ List.map Prod.fst rest := List.mem_map_of_mem Prod.fst hm
        exact hn.1 h3
      simp only [lookupA, if_neg hk]
      exact ih hn.2 hm

theorem keysOf_setAssoc_mem (acc : List (List Char × EntryI)) (k k2 : List Char) (v : EntryI)
    (h : k2 ∈ keysOf (setAssoc acc k v)) : k2 ∈ keysOf acc ∨ k2 = k := by
  induction acc with
  | nil =>
    simp [setAssoc, keysOf] at h
    exact Or.inr h
  | cons p rest ih =>
    obtain ⟨k3, w⟩ := p
    by_cases hk : k3 = k
    · subst hk
      rw [setAssoc_cons_eq] at h
      simp only [keysOf, List.map_cons, List.mem_cons] at h ⊢
      rcases h with h | h
      · exact Or.inr h
      · exact Or.inl (Or.inr h)
    · rw [setAssoc_cons_ne rest k3 k w v hk] at h
      simp only [keysOf, List.map_cons, List.mem_cons] at h ⊢
      rcases h with h | h
      · exact Or.inl (Or.inl h)
      · rcases ih h with h2 | h2
        · exact Or.inl (Or.inr h2)
        · exact Or.inr h2

theorem keysOf_setAssoc_nodup (acc : List (List Char × EntryI)) (k : List Char) (v : EntryI)
    (hn : (keysOf acc).Nodup) : (keysOf (setAssoc acc k v)).Nodup := by
  induction acc with
  | nil => simp [setAssoc, keysOf]
  | cons p rest ih =>
    obtain ⟨k3, w⟩ := p
    simp only [keysOf, List.map_cons, List.nodup_cons] at hn
    by_cases hk : k3 = k
    · subst hk
      rw [setAssoc_cons_eq]
      simp only [keysOf, List.map_cons, List.nodup_cons]
      exact ⟨hn.1, hn.2⟩
    · rw [setAssoc_cons_ne rest k3 k w v hk]
      simp only [keysOf, List.map_cons, List.nodup_cons]
      refine ⟨?_, ih hn.2⟩
      intro hmem
      rcases keysOf_setAssoc_mem rest k k3 v hmem with h2 | h2
      · exact hn.1 h2
      · exact hk h2

theorem argmaxStep_ne_none (o : Option (List Char)) (fn : List Char) :
    argmaxStep o fn ≠ none := by
  cases o with
  | none => simp [argmaxStep]
  | some b =>
    simp only [argmaxStep]
    split <;> simp

theorem foldl_argmax_ne_none : ∀ (l : List (List Char)) (o : Option (List Char)),
    o ≠ none → l.foldl argmaxStep o ≠ none := by
  intro l
  induction l with
  | nil => intro o h; simpa using h
  | cons x xs ih =>
    intro o h
    simp only [List.foldl_cons]
    exact ih (argmaxStep o x) (argmaxStep_ne_none o x)

theorem argmaxFirst_eq_none (l : List (List Char)) :
    argmaxFirst l = none ↔ l = [] := by
  constructor
  · intro h
    cases l with
    | nil => rfl
    | cons x xs =>
      simp only [argmaxFirst, List.foldl_cons] at h
      exact absurd h (foldl_argmax_ne_none xs (argmaxStep none x) (argmaxStep_ne_none none x))
  · intro h; subst h; rfl

theorem foldl_argmax_mem : ∀ (l : List (List Char)) (o : Option (List Char)) (b : List Char),
    l.foldl argmaxStep o = some b → b ∈ l ∨ o = some b := by
  intro l
  induction l with
  | nil => intro o b h; exact Or.inr h
  | cons x xs ih =>
    intro o b h
    simp only [List.foldl_cons] at h
    rcases ih (argmaxStep o x) b h with h2 | h2
    · exact Or.inl (List.mem_cons_of_mem _ h2)
    · cases o with
      | none =>
        simp only [argmaxStep] at h2
        cases h2
        exact Or.inl (List.mem_cons_self _ _)
      | some b0 =>
        simp only [argmaxStep] at h2
        split at h2
        · cases h2
          exact Or.inl (List.mem_cons_self _ _)
        · cases h2
          exact Or.inr rfl

theorem argmaxFirst_mem (l : List (List Char)) (b : List Char)
    (h : argmaxFirst l = some b) : b ∈ l := by
  rcases foldl_argmax_mem l none b h with h2 | h2
  · exact h2
  · exact Option.noConfusion h2

theorem argmaxFirst_snoc (l : List (List Char)) (x : List Char) :
    argmaxFirst (l ++ [x]) = argmaxStep (argmaxFirst l) x := by
  simp [argmaxFirst, List.foldl_append]

theorem sourceGroup_mem (files : List (List Char)) (dd fn : List Char)
    (h : fn ∈ sourceGroup files dd) :
    fn ∈ files ∧ validExt fn = true ∧ parseD fn = some dd := by
  simp only [sourceGroup, List.mem_filter, Bool.and_eq_true, decide_eq_true_eq] at h
  exact ⟨h.1, h.2.1, h.2.2⟩

theorem sourceGroup_snoc (pre : List (List Char)) (fn : List Char) (dd : List Char) :
    sourceGroup (pre ++ [fn]) dd =
      sourceGroup pre dd ++
        (if validExt fn = true ∧ parseD fn = some dd then [fn] else []) := by
  simp only [sourceGroup, List.filter_append]
  congr 1
  by_cases h1 : validExt fn = true
  · by_cases h2 : parseD fn = some dd
    · simp [h1, h2]
    · simp [h1, h2]
  · simp [h1]

theorem sourceGroup_snoc_irrelevant (pre : List (List Char)) (fn dd : List Char)
    (hc : ¬ (validExt fn = true ∧ parseD fn = some dd)) :
    sourceGroup (pre ++ [fn]) dd = sourceGroup pre dd := by
  rw [sourceGroup_snoc, if_neg hc, List.append_nil]

theorem cond_snoc_iff_of_some (pre : List (List Char)) (fn fn2 dd0 : List Char)
    (hd : parseD fn = some dd0) :
    (fn2 ∈ pre ∧ validExt fn2 = true ∧ parseD fn2 = none) ↔
      (fn2 ∈ pre ++ [fn] ∧ validExt fn2 = true ∧ parseD fn2 = none) := by
  constructor
  · rintro ⟨ha, hb, hc⟩
    exact ⟨List.mem_append.mpr (Or.inl ha), hb, hc⟩
  · rintro ⟨ha, hb, hc⟩
    rcases List.mem_append.mp ha with ha2 | ha2
    · exact ⟨ha2, hb, hc⟩
    · have he : fn2 = fn := List.mem_singleton.mp ha2
      subst he
      rw [hd] at hc
      exact Option.noConfusion hc

theorem cond_snoc_iff_of_invalid (pre : List (List Char)) (fn fn2 : List Char)
    (hv : ¬ validExt fn = true) :
    (fn2 ∈ pre ∧ validExt fn2 = true ∧ parseD fn2 = none) ↔
      (fn2 ∈ pre ++ [fn] ∧ validExt fn2 = true ∧ parseD fn2 = none) := by
  constructor
  · rintro ⟨ha, hb, hc⟩
    exact ⟨List.mem_append.mpr (Or.inl ha), hb, hc⟩
  · rintro ⟨ha, hb, hc⟩
    rcases List.mem_append.mp ha with ha2 | ha2
    · exact ⟨ha2, hb, hc⟩
    · have he : fn2 = fn := List.mem_singleton.mp ha2
      subst he
      exact absurd hb hv

theorem pickInv_step (folder : List Char) (pre : List (List Char))
    (acc : List (List Char × EntryI)) (fn : List Char) (h : PickInv folder pre acc) :
    PickInv folder (pre ++ [fn]) (pickStep folder acc fn) := by
  obtain ⟨hK1, hK2, hK3, hK4⟩ := h
  by_cases hv : validExt fn = true
  · cases hd : parseD fn with
    | none =>
      have hstep : pickStep folder acc fn = setAssoc acc (noDKey fn) (mkEntryI folder fn) := by
        simp [pickStep, hv, hd]
      rw [hstep]
      refine ⟨?_, ?_, ?_, ?_⟩
      · intro dd hdd
        rw [lookupA_setAssoc_ne acc (noDKey fn) dd _ (noDKey_ne_digits6 fn dd hdd)]
        rw [hK1 dd hdd]
        have hc : ¬ (validExt fn = true ∧ parseD fn = some dd) := by
          intro hc2
          rw [hd] at hc2
          exact Option.noConfusion hc2.2
        rw [sourceGroup_snoc_irrelevant pre fn dd hc]
      · intro fn2
        by_cases h2 : fn2 = fn
        · subst h2
          rw [lookupA_setAssoc_self]
          rw [if_pos ⟨List.mem_append.mpr (Or.inr (by simp)), hv, hd⟩]
        · have hne : noDKey fn2 ≠ noDKey fn := fun he => h2 (noDKey_inj _ _ he)
          rw [lookupA_setAssoc_ne acc (noDKey fn) (noDKey fn2) _ hne, hK2 fn2]
          refine if_congr ?_ rfl rfl
          constructor
          · rintro ⟨ha, hb, hc⟩
            exact ⟨List.mem_append.mpr (Or.inl ha), hb, hc⟩
          · rintro ⟨ha, hb, hc⟩
            rcases List.mem_append.mp ha with ha2 | ha2
            · exact ⟨ha2, hb, hc⟩
            · exact absurd (List.mem_singleton.mp ha2) h2
      · intro k hk
        rcases keysOf_setAssoc_mem acc (noDKey fn) k _ hk with h2 | h2
        · exact hK3 k h2
        · exact Or.inr ⟨fn, h2⟩
      · exact keysOf_setAssoc_nodup acc (noDKey fn) _ hK4
    | some dd0 =>
      have hdd0 : isDigits6 dd0 := parseD_shape fn dd0 hd
      have hgsnoc : sourceGroup (pre ++ [fn]) dd0 = sourceGroup pre dd0 ++ [fn] := by
        rw [sourceGroup_snoc, if_pos ⟨hv, hd⟩]
      cases hl : lookupA acc dd0 with
      | none =>
        have hstep : pickStep folder acc fn = setAssoc acc dd0 (mkEntryI folder fn) := by
          simp [pickStep, hv, hd, hl]
        have hgem : sourceGroup pre dd0 = [] := by
          have hthis := hK1 dd0 hdd0
          rw [hl] at hthis
          exact (argmaxFirst_eq_none _).mp (Option.map_eq_none.mp hthis.symm)
        rw [hstep]
        refine ⟨?_, ?_, ?_, ?_⟩
        · intro dd hdd
          by_cases hddq : dd = dd0
          · subst hddq
            rw [lookupA_setAssoc_self, hgsnoc, hgem, List.nil_append]
            rfl
          · rw [lookupA_setAssoc_ne acc dd0 dd _ hddq, hK1 dd hdd]
            rw [sourceGroup_snoc_irrelevant pre fn dd]
            intro hc
            rw [hd] at hc
            exact hddq (Option.some.inj hc.2).symm
        · intro fn2
          rw [lookupA_setAssoc_ne acc dd0 (noDKey fn2) _
            (Ne.symm (noDKey_ne_digits6 fn2 dd0 hdd0)), hK2 fn2]
          exact if_congr (cond_snoc_iff_of_some pre fn fn2 dd0 hd) rfl rfl
        · intro k hk
          rcases keysOf_setAssoc_mem acc dd0 k _ hk with h2 | h2
          · exact hK3 k h2
          · exact Or.inl (h2 ▸ hdd0)
        · exact keysOf_setAssoc_nodup acc dd0 _ hK4
      | some old =>
        have hbex : ∃ b, argmaxFirst (sourceGroup pre dd0) = some b ∧
            old = mkEntryI folder b := by
          have hthis := hK1 dd0 hdd0
          rw [hl] at hthis
          cases hbm : argmaxFirst (sourceGroup pre dd0) with
          | none =>
            rw [hbm] at hthis
            exact Option.noConfusion hthis
          | some b =>
            rw [hbm, Option.map_some'] at hthis
            exact ⟨b, rfl, Option.some.inj hthis⟩
        obtain ⟨b, hb, holdeq⟩ := hbex
        have holdjv : old.jvInt = jvIntFn b := by rw [holdeq]; rfl
        by_cases hgt : (mkEntryI folder fn).jvInt > old.jvInt
        · have hstep : pickStep folder acc fn = setAssoc acc dd0 (mkEntryI folder fn) := by
            simp [pickStep, hv, hd, hl, hgt]
          rw [hstep]
          refine ⟨?_, ?_, ?_, ?_⟩
          · intro dd hdd
            by_cases hddq : dd = dd0
            · subst hddq
              rw [lookupA_setAssoc_self, hgsnoc, argmaxFirst_snoc, hb]
              have hgt2 : jvIntFn fn > jvIntFn b := by
                rw [holdjv] at hgt
                exact hgt
              simp only [argmaxStep, if_pos hgt2, Option.map_some']
            · rw [lookupA_setAssoc_ne acc dd0 dd _ hddq, hK1 dd hdd]
              rw [sourceGroup_snoc_irrelevant pre fn dd]
              intro hc
              rw [hd] at hc
              exact hddq (Option.some.inj hc.2).symm
          · intro fn2
            rw [lookupA_setAssoc_ne acc dd0 (noDKey fn2) _
              (Ne.symm (noDKey_ne_digits6 fn2 dd0 hdd0)), hK2 fn2]
            exact if_congr (cond_snoc_iff_of_some pre fn fn2 dd0 hd) rfl rfl
          · intro k hk
            rcases keysOf_setAssoc_mem acc dd0 k _ hk with h2 | h2
            · exact hK3 k h2
            · exact Or.inl (h2 ▸ hdd0)
          · exact keysOf_setAssoc_nodup acc dd0 _ hK4
        · have hstep : pickStep folder acc fn = acc := by
            simp [pickStep, hv, hd, hl, hgt]
          rw [hstep]
          refine ⟨?_, ?_, hK3, hK4⟩
          · intro dd hdd
            by_cases hddq : dd = dd0
            · subst hddq
              rw [hl, hgsnoc, argmaxFirst_snoc, hb]
              have hngt2 : ¬ jvIntFn fn > jvIntFn b := by
                rw [holdjv] at hgt
                exact hgt
              simp only [argmaxStep, if_neg hngt2, Option.map_some']
              rw [holdeq]
            · rw [hK1 dd hdd]
              rw [sourceGroup_snoc_irrelevant pre fn dd]
              intro hc
              rw [hd] at hc
              exact hddq (Option.some.inj hc.2).symm
          · intro fn2
            rw [hK2 fn2]
            exact if_congr (cond_snoc_iff_of_some pre fn fn2 dd0 hd) rfl rfl
  · have hstep : pickStep folder acc fn = acc := by simp [pickStep, hv]
    rw [hstep]
    refine ⟨?_, ?_, hK3, hK4⟩
    · intro dd hdd
      rw [hK1 dd hdd]
      exact (sourceGroup_snoc_irrelevant pre fn dd (fun hc => hv hc.1)).symm ▸ rfl
    · intro fn2
      rw [hK2 fn2]
      exact if_congr (cond_snoc_iff_of_invalid pre fn fn2 hv) rfl rfl

theorem pickInv_nil (folder : List Char) : PickInv folder [] [] := by
  refine ⟨?_, ?_, ?_, ?_⟩
  · intro dd _
    simp [lookupA, sourceGroup, argmaxFirst]
  · intro fn
    simp [lookupA]
  · intro k hk
    exact absurd hk (by simp [keysOf])
  · simp [keysOf]

theorem pickInv_fold (folder : List Char) : ∀ (files pre : List (List Char)) acc,
    PickInv folder pre acc →
    PickInv folder (pre ++ files) (files.foldl (pickStep folder) acc) := by
  intro files
  induction files with
  | nil =>
    intro pre acc h
    simpa using h
  | cons fn rest ih =>
    intro pre acc h
    have h2 := pickInv_step folder pre acc fn h
    have h3 := ih (pre ++ [fn]) (pickStep folder acc fn) h2
    simpa [List.append_assoc] using h3

theorem pickInv_main (folder : List Char) (files : List (List Char)) :
    PickInv folder files (files.foldl (pickStep folder) []) := by
  have h := pickInv_fold folder files [] [] (pickInv_nil folder)
  simpa using h

theorem insertPicked_perm (x : PickedFile) : ∀ l, (insertPicked x l).Perm (x :: l) := by
  intro l
  induction l with
  | nil => simp [insertPicked]
  | cons y ys ih =>
    simp only [insertPicked]
    split
    · exact (ih.cons y).trans (List.Perm.swap x y ys)
    · exact List.Perm.refl _

theorem sortPicked_perm : ∀ l, (sortPicked l).Perm l := by
  intro l
  induction l with
  | nil => simp [sortPicked]
  | cons x xs ih =>
    exact (insertPicked_perm x (sortPicked xs)).trans (ih.cons x)

theorem mem_pick_iff (folder : List Char) (files : List (List Char)) (r : PickedFile) :
    r ∈ pick_latest_files_by_duplicate_d_date folder files ↔
      r ∈ (files.foldl (pickStep folder) []).map (fun kv => toPicked kv.2) := by
  unfold pick_latest_files_by_duplicate_d_date
  exact (sortPicked_perm _).mem_iff

theorem countP_key_le_one (acc : List (List Char × EntryI)) (dd : List Char)
    (hn : (keysOf acc).Nodup) :
    acc.countP (fun kv => decide (kv.1 = dd)) ≤ 1 := by
  induction acc with
  | nil => simp
  | cons p rest ih =>
    obtain ⟨k, v⟩ := p
    simp only [keysOf, List.map_cons, List.nodup_cons] at hn
    rw [List.countP_cons]
    by_cases hk : k = dd
    · subst hk
      have hz : rest.countP (fun kv => decide (kv.1 = k)) = 0 := by
        rw [List.countP_eq_zero]
        intro kv hkv
        simp only [decide_eq_true_eq]
        intro he
        exact hn.1 (he ▸ List.mem_map_of_mem Prod.fst hkv)
      simp [hz]
    · have h2 := ih hn.2
      simp only [hk, decide_eq_true_eq]
      simp [hk]
      omega

theorem acc_entry_cases (folder : List Char) (files : List (List Char)) (k : List Char)
    (v : EntryI) (hmem : (k, v) ∈ files.foldl (pickStep folder) []) :
    (∃ b, isDigits6 k ∧ argmaxFirst (sourceGroup files k) = some b ∧
        v = mkEntryI folder b ∧ b ∈ files ∧ validExt b = true ∧ parseD b = some k) ∨
    (∃ fn, k = noDKey fn ∧ fn ∈ files ∧ validExt fn = true ∧ parseD fn = none ∧
        v = mkEntryI folder fn) := by
  obtain ⟨hK1, hK2, hK3, hK4⟩ := pickInv_main folder files
  have hlk : lookupA (files.foldl (pickStep folder) []) k = some v :=
    mem_lookupA_of_nodup _ k v hK4 hmem
  have hkmem : k ∈ keysOf (files.foldl (pickStep folder) []) :=
    List.mem_map_of_mem Prod.fst hmem
  rcases hK3 k hkmem with hdig | ⟨fn, hfn⟩
  · left
    have h1 := hK1 k hdig
    rw [hlk] at h1
    cases hbm : argmaxFirst (sourceGroup files k) with
    | none =>
      rw [hbm] at h1
      exact Option.noConfusion h1
    | some b =>
      rw [hbm, Option.map_some'] at h1
      have hv : v = mkEntryI folder b := Option.some.inj h1
      have hbg := sourceGroup_mem files k b (argmaxFirst_mem _ b hbm)
      exact ⟨b, hdig, rfl, hv, hbg.1, hbg.2.1, hbg.2.2⟩
  · right
    subst hfn
    have h2 := hK2 fn
    rw [hlk] at h2
    by_cases hc : fn ∈ files ∧ validExt fn = true ∧ parseD fn = none
    · rw [if_pos hc] at h2
      exact ⟨fn, rfl, hc.1, hc.2.1, hc.2.2, Option.some.inj h2⟩
    · rw [if_neg hc] at h2
      exact Option.noConfusion h2

theorem parseJV_shape (fn j : List Char) (h : parseJV fn = some j) :
    j ≠ [] ∧ j.all isDigitChar = true := by
  simp only [parseJV, parse_dates_from_filename] at h
  obtain ⟨full, hfull, hj⟩ := Option.map_eq_some'.mp h
  have hs := searchJV_shape _ full hfull
  have hj2 : (full.drop 2).take 2 ++ ((full.drop 4).take 2 ++ (full.drop 6).take 2) = j := hj
  rw [slices_eq_drop2 full hs.1] at hj2
  subst hj2
  constructor
  · intro hnil
    have h7 := congrArg List.length hnil
    rw [List.length_drop, hs.1] at h7
    simp at h7
  · rw [List.all_eq_true]
    intro c hc
    exact (List.all_eq_true.mp hs.2) c (List.mem_of_mem_drop hc)

/-- C1: the selection keeps at most one file per extracted D-date key; the
    kept one is the first of the group attaining the largest numeric JV
    value, where a missing JV value counts below every present one; each
    valid file without a D-date is kept; every result stems from a file with
    a recognised extension, so files without one are discarded. -/
theorem c1_pick_latest_selection (folder : List Char) (files : List (List Char))
    (dd : List Char) :
    ((pick_latest_files_by_duplicate_d_date folder files).countP
        (fun r => decide (r.dDate = some dd)) ≤ 1) ∧
    (∀ r ∈ pick_latest_files_by_duplicate_d_date folder files, r.dDate = some dd →
      ∃ b, argmaxFirst (sourceGroup files dd) = some b ∧
        r = toPicked (mkEntryI folder b)) ∧
    (sourceGroup files dd ≠ [] →
      ∃ r ∈ pick_latest_files_by_duplicate_d_date folder files, r.dDate = some dd) ∧
    (∀ fn ∈ files, validExt fn = true → parseD fn = none →
      toPicked (mkEntryI folder fn) ∈ pick_latest_files_by_duplicate_d_date folder files) ∧
    (∀ r ∈ pick_latest_files_by_duplicate_d_date folder files,
      ∃ fn, fn ∈ files ∧ validExt fn = true ∧ r = toPicked (mkEntryI folder fn)) ∧
    (∀ g k j : List Char, parseJV g = none → parseJV k = some j →
      jvIntFn g < jvIntFn k) := by
  obtain ⟨hK1, hK2, hK3, hK4⟩ := pickInv_main folder files
  refine ⟨?_, ?_, ?_, ?_, ?_, ?_⟩
  · unfold pick_latest_files_by_duplicate_d_date
    rw [(sortPicked_perm _).countP_eq, List.countP_map]
    refine le_trans (List.countP_mono_left ?_) (countP_key_le_one _ dd hK4)
    intro kv hkv hp
    simp only [Function.comp_apply, decide_eq_true_eq] at hp ⊢
    rcases acc_entry_cases folder files kv.1 kv.2 hkv with
      ⟨b, _, _, hveq, _, _, hbd⟩ | ⟨fn, _, _, _, hpd, hveq⟩
    · have h5 : (toPicked kv.2).dDate = some kv.1 := by
        rw [hveq]
        exact hbd
      rw [hp] at h5
      exact (Option.some.inj h5).symm
    · have h5 : (toPicked kv.2).dDate = none := by
        rw [hveq]
        exact hpd
      rw [hp] at h5
      exact Option.noConfusion h5
  · intro r hr hrd
    rw [mem_pick_iff] at hr
    obtain ⟨kv, hkv, hreq⟩ := List.mem_map.mp hr
    rcases acc_entry_cases folder files kv.1 kv.2 hkv with
      ⟨b, _, hbm, hveq, _, _, hbd⟩ | ⟨fn, _, _, _, hpd, hveq⟩
    · have h5 : r.dDate = some kv.1 := by
        rw [← hreq, hveq]
        exact hbd
      rw [hrd] at h5
      have h6 : kv.1 = dd := (Option.some.inj h5).symm
      rw [h6] at hbm
      exact ⟨b, hbm, by rw [← hreq, hveq]⟩
    · exfalso
      have h5 : r.dDate = none := by
        rw [← hreq, hveq]
        exact hpd
      rw [hrd] at h5
      exact Option.noConfusion h5
  · intro hne
    cases hbm : argmaxFirst (sourceGroup files dd) with
    | none => exact absurd ((argmaxFirst_eq_none _).mp hbm) hne
    | some b =>
      have hbg := sourceGroup_mem files dd b (argmaxFirst_mem _ b hbm)
      have hdig : isDigits6 dd := parseD_shape b dd hbg.2.2
      have h1 := hK1 dd hdig
      rw [hbm, Option.map_some'] at h1
      have hmem2 : (dd, mkEntryI folder b) ∈ files.foldl (pickStep folder) [] :=
        lookupA_some_mem _ dd _ h1
      refine ⟨toPicked (mkEntryI folder b), ?_, ?_⟩
      · rw [mem_pick_iff]
        exact List.mem_map.mpr ⟨(dd, mkEntryI folder b), hmem2, rfl⟩
      · exact hbg.2.2
  · intro fn hfn hval hpd
    have h2 := hK2 fn
    rw [if_pos ⟨hfn, hval, hpd⟩] at h2
    have hmem2 := lookupA_some_mem _ (noDKey fn) _ h2
    rw [mem_pick_iff]
    exact List.mem_map.mpr ⟨(noDKey fn, mkEntryI folder fn), hmem2, rfl⟩
  · intro r hr
    rw [mem_pick_iff] at hr
    obtain ⟨kv, hkv, hreq⟩ := List.mem_map.mp hr
    rcases acc_entry_cases folder files kv.1 kv.2 hkv with
      ⟨b, _, _, hveq, hbf, hbv, _⟩ | ⟨fn, _, hfnf, hfv, _, hveq⟩
    · exact ⟨b, hbf, hbv, by rw [← hreq, hveq]⟩
    · exact ⟨fn, hfnf, hfv, by rw [← hreq, hveq]⟩
  · intro g k j hg hk
    have hshape := parseJV_shape k j hk
    rw [jvIntFn, jvIntFn, hg, hk]
    simp only [jvIntOf, if_pos hshape]
    omega

/-- Witness for C1 at a concrete folder and file list: a D-date group is
    present and resolved, and the date-less valid file is kept. -/
theorem c1_pick_latest_selection_witness :
    (∃ r ∈ pick_latest_files_by_duplicate_d_date "t".data
        ["a_D240101JV00000002.csv".data, "b_D240101JV00000001.csv".data, "nodate.txt".data],
      r.dDate = some "240101".data) ∧
    toPicked (mkEntryI "t".data "nodate.txt".data) ∈
      pick_latest_files_by_duplicate_d_date "t".data
        ["a_D240101JV00000002.csv".data, "b_D240101JV00000001.csv".data, "nodate.txt".data] :=
  ⟨(c1_pick_latest_selection "t".data
      ["a_D240101JV00000002.csv".data, "b_D240101JV00000001.csv".data, "nodate.txt".data]
      "240101".data).2.2.1 (by decide),
   (c1_pick_latest_selection "t".data
      ["a_D240101JV00000002.csv".data, "b_D240101JV00000001.csv".data, "nodate.txt".data]
      "240101".data).2.2.2.1 "nodate.txt".data (by decide) (by decide) (by decide)⟩

/- ===== gen_gl.py: reference sheet lookup and the per-file loop ===== -/

/-- re.sub of the pattern GL (IGNORECASE) with the empty string: every
    non-overlapping occurrence is removed, scanning from the left. -/
def removeGL : List Char → List Char
  | [] => []
  | [c] => [c]
  | c1 :: c2 :: rest =>
    if (c1 = 'G' ∨ c1 = 'g') ∧ (c2 = 'L' ∨ c2 = 'l') then removeGL rest
    else c1 :: removeGL (c2 :: rest)

/-- Truncation at the first start position of the D pattern with its
    optional dash or underscore, modelling the re.sub that deletes the match
    and everything after it. -/
def truncAtD : List Char → List Char
  | [] => []
  | c :: rest =>
    if c = '-' ∨ c = '_' then
      match matchD rest with
      | some _ => []
      | none =>
        match matchD (c :: rest) with
        | some _ => []
        | none => c :: truncAtD rest
    else
      match matchD (c :: rest) with
      | some _ => []
      | none => c :: truncAtD rest

/-- strip_d_suffix_for_tlf_sheet from gen_gl.py. -/
def strip_d_suffix_for_tlf_sheet (nameNoExt : List Char) : List Char :=
  stripWs (truncAtD nameNoExt)

/-- The fallback lookup name of a source file: its name with GL removed,
    the extension removed, whitespace stripped, then the D suffix
    stripped. -/
def fallbackLookupName (filename : List Char) : List Char :=
  strip_d_suffix_for_tlf_sheet (stripWs (splitextRoot (removeGL filename)))

/-- Candidate reference sheet names in the order the source builds them. -/
def tlfCandidates (dDate : Option (List Char)) (filename : List Char) : List (List Char) :=
  (match dDate with
   | some dd => [dd, 'D' :: dd]
   | none => []) ++ [fallbackLookupName filename]

/-- The sheet selection loop: the first candidate that is non-empty (Python
    truthiness of the string) and among the workbook sheet names. -/
def selectTlfSheet (dDate : Option (List Char)) (filename : List Char)
    (sheetNames : List (List Char)) : Option (List Char) :=
  (tlfCandidates dDate filename).find? (fun c => !c.isEmpty && decide (c ∈ sheetNames))

/-- Source-side input of one processed file: its name, its extracted D-date,
    and the outcome of reading its Seq base values. -/
structure SourceItem where
  name : List Char
  dDate : Option (List Char)
  glSeq : Except (List Char) (List (List Char))

/-- Reference workbook: its sheet names and the outcome of reading the
    column-8 base values of a sheet. -/
structure TlfWorkbook where
  sheetNames : List (List Char)
  sheetCol8 : List Char → Except (List Char) (List (List Char))

/-- One output sheet summarised by the composite key columns that drive its
    lookup panels. -/
structure OutSheet where
  name : List Char
  tlfKeys : List (List Char)
  glKeys : List (List Char)
deriving DecidableEq, Repr

/-- The per-file body of the processing loop, with reads represented by
    their outcomes: pick the reference sheet, load its stripped base column
    when one matched (otherwise the reference table stays empty), load the
    source rows, and build both composite key columns. -/
def processOneFile (book : TlfWorkbook) (f : SourceItem) :
    Except (List Char) OutSheet := do
  let tlfBase ← match selectTlfSheet f.dDate f.name book.sheetNames with
    | none => Except.ok []
    | some s => book.sheetCol8 s
  let gl ← f.glSeq
  Except.ok ⟨f.name, searchKeys (tlfBase.map stripWs), searchKeys gl⟩

/-- The printed skip message of the per-file try block. -/
def errLog (name e : List Char) : List Char :=
  "Error processing file ".data ++ name ++ (": ".data ++ e)

/-- The processing loop with its per-file try block: a failing file is
    logged and skipped, the remaining files still processed. -/
def processAllFiles (book : TlfWorkbook) : List SourceItem → List OutSheet × List (List Char)
  | [] => ([], [])
  | f :: rest =>
    match processOneFile book f with
    | .ok s =>
      let r := processAllFiles book rest
      (s :: r.1, r.2)
    | .error e =>
      let r := processAllFiles book rest
      (r.1, errLog f.name e :: r.2)

theorem processAllFiles_append (book : TlfWorkbook) : ∀ xs ys,
    processAllFiles book (xs ++ ys) =
      ((processAllFiles book xs).1 ++ (processAllFiles book ys).1,
       (processAllFiles book xs).2 ++ (processAllFiles book ys).2) := by
  intro xs ys
  induction xs with
  | nil => simp [processAllFiles]
  | cons f rest ih =>
    simp only [List.cons_append, processAllFiles]
    cases processOneFile book f with
    | ok s => simp [ih]
    | error e => simp [ih]

/-- C5: the matching reference sheet is the first candidate (the D-date,
    then D prefixed to it, then the cleaned file name) that is a sheet name
    of the workbook, whose sheet names are non-empty; when none matches, no
    reference data is loaded and the output sheet holds only source-side
    data. -/
theorem c5_reference_sheet_lookup (d : Option (List Char)) (fn : List Char)
    (names : List (List Char)) (hne : ∀ s ∈ names, s ≠ []) :
    selectTlfSheet d fn names =
      (tlfCandidates d fn).find? (fun c => decide (c ∈ names)) ∧
    (∀ (book : TlfWorkbook) (f : SourceItem), book.sheetNames = names → f.dDate = d →
      f.name = fn → selectTlfSheet d fn names = none →
      processOneFile book f =
        (f.glSeq).map (fun gl => ⟨fn, [], searchKeys gl⟩)) := by
  constructor
  · have hpq : (fun c : List Char => !c.isEmpty && decide (c ∈ names)) =
        (fun c : List Char => decide (c ∈ names)) := by
      funext c
      by_cases hc : c ∈ names
      · have hcne : c ≠ [] := hne c hc
        simp [hc, hcne]
      · simp [hc]
    rw [selectTlfSheet, hpq]
  · intro book f hb hd hf hsel
    subst hb
    subst hd
    subst hf
    simp only [processOneFile, hsel]
    cases f.glSeq with
    | ok gl => rfl
    | error e => rfl

/-- Witness for C5 at a concrete workbook: the selection equals the plain
    first-candidate search, and a file with no matching sheet yields a
    source-only output sheet. -/
theorem c5_reference_sheet_lookup_witness :
    (selectTlfSheet (some "240101".data) "x.csv".data ["240101".data] =
      (tlfCandidates (some "240101".data) "x.csv".data).find?
        (fun c => decide (c ∈ ["240101".data]))) ∧
    processOneFile ⟨["ZZZ".data], fun _ => Except.ok []⟩
        ⟨"x.csv".data, none, Except.ok ["1".data]⟩ =
      (Except.ok ["1".data] :
          Except (List Char) (List (List Char))).map
        (fun gl => ⟨"x.csv".data, [], searchKeys gl⟩) :=
  ⟨(c5_reference_sheet_lookup (some "240101".data) "x.csv".data ["240101".data]
      (by decide)).1,
   (c5_reference_sheet_lookup none "x.csv".data ["ZZZ".data] (by decide)).2
      ⟨["ZZZ".data], fun _ => Except.ok []⟩
      ⟨"x.csv".data, none, Except.ok ["1".data]⟩ rfl rfl rfl (by decide)⟩

/-- C6: the per-file try block makes one failing file invisible to the rest
    of the run: outputs equal the successful files' outputs in order, a
    failing file only inserts its log line, and each file is processed
    exactly once with no retry. -/
theorem c6_per_file_error_handling (book : TlfWorkbook) :
    (∀ files, (processAllFiles book files).1 =
        files.filterMap (fun f => (processOneFile book f).toOption)) ∧
    (∀ xs ys (bad : SourceItem) e, processOneFile book bad = .error e →
      (processAllFiles book (xs ++ bad :: ys)).1 =
        (processAllFiles book (xs ++ ys)).1 ∧
      (processAllFiles book (xs ++ bad :: ys)).2 =
        (processAllFiles book xs).2 ++
          errLog bad.name e :: (processAllFiles book ys).2) := by
  constructor
  · intro files
    induction files with
    | nil => rfl
    | cons f rest ih =>
      simp only [processAllFiles, List.filterMap_cons]
      cases hf : processOneFile book f with
      | ok s => simp [Except.toOption, ih]
      | error e => simp [Except.toOption, ih]
  · intro xs ys bad e hbad
    constructor
    · rw [processAllFiles_append, processAllFiles_append]
      simp only [processAllFiles, hbad]
    · rw [processAllFiles_append]
      simp only [processAllFiles, hbad]

/-- Witness for C6: a concrete failing file is skipped and logged while its
    neighbours are processed. -/
theorem c6_per_file_error_handling_witness :
    (processAllFiles ⟨[], fun _ => Except.ok []⟩
        ([⟨"a.csv".data, none, Except.ok []⟩] ++
          ⟨"b.csv".data, none, Except.error "boom".data⟩ ::
            [⟨"c.csv".data, none, Except.ok []⟩])).1 =
      (processAllFiles ⟨[], fun _ => Except.ok []⟩
        ([⟨"a.csv".data, none, Except.ok []⟩] ++
          [⟨"c.csv".data, none, Except.ok []⟩])).1 :=
  ((c6_per_file_error_handling ⟨[], fun _ => Except.ok []⟩).2
    [⟨"a.csv".data, none, Except.ok []⟩]
    [⟨"c.csv".data, none, Except.ok []⟩]
    ⟨"b.csv".data, none, Except.error "boom".data⟩
    "boom".data rfl).1

/- ===== Gen_database.py: the sheet merger ===== -/

/-- One sheet of the uploaded workbook: its name, its column names, and its
    cell rows, a missing value being none. -/
structure XSheet where
  name : List Char
  cols : List (List Char)
  rows : List (List (Option (List Char)))
deriving DecidableEq, Repr

/-- Column filtering of one row: keep the cells of columns whose stringified
    name does not begin with Unnamed, pairing each kept cell with its column
    name. -/
def cleanRow (cols : List (List Char)) (r : List (Option (List Char))) :
    List (List Char × Option (List Char)) :=
  (cols.zip r).filter (fun p => !prefixMatch "Unnamed".data p.1)

/-- Cleaning of one sheet: drop the Unnamed columns, then drop every row all
    of whose remaining values are missing. -/
def cleanedRows (s : XSheet) : List (List (List Char × Option (List Char))) :=
  (s.rows.map (cleanRow s.cols)).filter (fun r => !r.all (fun p => p.2.isNone))

/-- Statistics record returned with the merged data. -/
structure MergeStats where
  sheetCount : Nat
  mergedRows : Nat
  perSheetRows : List (List Char × Nat)
deriving DecidableEq, Repr

/-- One iteration of the merge loop: clean the sheet, record its row count,
    and keep it only when rows remain. -/
def mergeStep
    (st : List (List (List (List Char × Option (List Char)))) × List (List Char × Nat))
    (s : XSheet) :
    List (List (List (List Char × Option (List Char)))) × List (List Char × Nat) :=
  let rs := cleanedRows s
  ((if 0 < rs.length then st.1 ++ [rs] else st.1), st.2 ++ [(s.name, rs.length)])

/-- merge_excel_to_parquet_bytes from Gen_database.py: clean each sheet in
    order, record per-sheet row counts, fail when nothing is left, otherwise
    concatenate the kept sheets with the row index reset. -/
def merge_excel_to_parquet_bytes (sheets : List XSheet) :
    Except (List Char)
      (List (List (List Char × Option (List Char))) × MergeStats) :=
  let res := sheets.foldl mergeStep ([], [])
  if res.1.isEmpty then Except.error "no data after cleaning".data
  else
    let merged := res.1.join
    Except.ok (merged, ⟨sheets.length, merged.length, res.2⟩)

theorem merge_foldl_char : ∀ (sheets : List XSheet) st,
    sheets.foldl mergeStep st =
      (st.1 ++ ((sheets.map cleanedRows).filter (fun rs => decide (0 < rs.length))),
       st.2 ++ sheets.map (fun s => (s.name, (cleanedRows s).length))) := by
  intro sheets
  induction sheets with
  | nil => intro st; simp
  | cons s rest ih =>
    intro st
    simp only [List.foldl_cons, List.map_cons, List.filter_cons]
    rw [ih]
    by_cases hs : 0 < (cleanedRows s).length
    · simp [mergeStep, hs, List.append_assoc]
    · simp [mergeStep, hs, List.append_assoc]

theorem join_filter_pos (ls : List (List (List (List Char × Option (List Char))))) :
    ((ls.filter (fun rs => decide (0 < rs.length))).join) = ls.join := by
  induction ls with
  | nil => rfl
  | cons rs rest ih =>
    by_cases hs : 0 < rs.length
    · simp [List.filter_cons, hs, List.join_cons, ih]
    · have hnil : rs = [] := by
        cases rs with
        | nil => rfl
        | cons a as => exact absurd (by simp) hs
      simp [List.filter_cons, hs, hnil, ih]

theorem join_filter_nonempty (sheets : List XSheet) :
    ((sheets.filter (fun s => !(cleanedRows s).isEmpty)).map cleanedRows).join =
      (sheets.map cleanedRows).join := by
  induction sheets with
  | nil => rfl
  | cons s rest ih =>
    by_cases hs : (cleanedRows s).isEmpty = true
    · have hnil : cleanedRows s = [] := by
        cases hcr : cleanedRows s with
        | nil => rfl
        | cons a as => rw [hcr] at hs; simp [List.isEmpty] at hs
      simp [List.filter_cons, hs, hnil, ih]
    · simp [List.filter_cons, hs, ih]

/-- C3: the merged output equals the concatenation, in sheet order with the
    row index reset, of every cleaned sheet; sheets cleaned to zero rows
    contribute nothing. -/
theorem c3_merger_concatenation (sheets : List XSheet)
    (out : List (List (List Char × Option (List Char)))) (stats : MergeStats)
    (h : merge_excel_to_parquet_bytes sheets = Except.ok (out, stats)) :
    out = (sheets.map cleanedRows).join ∧
    out = ((sheets.filter (fun s => !(cleanedRows s).isEmpty)).map cleanedRows).join := by
  have hfold := merge_foldl_char sheets ([], [])
  simp only [List.nil_append] at hfold
  rw [merge_excel_to_parquet_bytes, hfold] at h
  by_cases hemp :
      ((sheets.map cleanedRows).filter (fun rs => decide (0 < rs.length))).isEmpty = true
  · rw [if_pos hemp] at h
    exact Except.noConfusion h
  · rw [if_neg hemp] at h
    have h2 := Except.ok.inj h
    have hout : out = ((sheets.map cleanedRows).filter
        (fun rs => decide (0 < rs.length))).join := by
      have := congrArg Prod.fst h2
      exact this.symm
    rw [join_filter_pos] at hout
    exact ⟨hout, by rw [hout, join_filter_nonempty]⟩

/-- Witness for C3 at a concrete workbook with one kept and one emptied
    sheet. -/
theorem c3_merger_concatenation_witness :
    [[("x".data, some "1".data)]] =
      ([⟨"A".data, ["x".data], [[some "1".data]]⟩,
        ⟨"B".data, ["Unnamed: 0".data], [[some "2".data]]⟩].map cleanedRows).join :=
  (c3_merger_concatenation
    [⟨"A".data, ["x".data], [[some "1".data]]⟩,
     ⟨"B".data, ["Unnamed: 0".data], [[some "2".data]]⟩]
    [[("x".data, some "1".data)]]
    ⟨2, 1, [("A".data, 1), ("B".data, 0)]⟩ rfl).1

/-- C10: the merger fails exactly when every sheet cleans to zero rows, and
    a successful run returns statistics whose per-sheet row counts cover
    every sheet, the emptied ones included. -/
theorem c10_merger_error_and_stats (sheets : List XSheet) :
    ((∃ e, merge_excel_to_parquet_bytes sheets = Except.error e) ↔
      ∀ s ∈ sheets, cleanedRows s = []) ∧
    (∀ out stats, merge_excel_to_parquet_bytes sheets = Except.ok (out, stats) →
      stats.perSheetRows = sheets.map (fun s => (s.name, (cleanedRows s).length)) ∧
      stats.sheetCount = sheets.length) := by
  have hfold := merge_foldl_char sheets ([], [])
  simp only [List.nil_append] at hfold
  constructor
  · constructor
    · rintro ⟨e, he⟩
      rw [merge_excel_to_parquet_bytes, hfold] at he
      by_cases hemp :
          ((sheets.map cleanedRows).filter (fun rs => decide (0 < rs.length))).isEmpty = true
      · intro s hs
        have hnil := List.isEmpty_iff.mp hemp
        have := List.filter_eq_nil.mp hnil
        have h3 := this (cleanedRows s) (List.mem_map_of_mem cleanedRows hs)
        simp only [decide_eq_true_eq] at h3
        cases hcr : cleanedRows s with
        | nil => rfl
        | cons a as => rw [hcr] at h3; exact absurd (by simp) h3
      · rw [if_neg hemp] at he
        exact Except.noConfusion he
    · intro hall
      refine ⟨"no data after cleaning".data, ?_⟩
      rw [merge_excel_to_parquet_bytes, hfold]
      have hemp :
          ((sheets.map cleanedRows).filter (fun rs => decide (0 < rs.length))).isEmpty = true := by
        rw [List.isEmpty_iff, List.filter_eq_nil]
        intro rs hrs
        obtain ⟨s, hs, hrs2⟩ := List.mem_map.mp hrs
        rw [← hrs2, hall s hs]
        simp
      rw [if_pos hemp]
  · intro out stats h
    rw [merge_excel_to_parquet_bytes, hfold] at h
    by_cases hemp :
        ((sheets.map cleanedRows).filter (fun rs => decide (0 < rs.length))).isEmpty = true
    · rw [if_pos hemp] at h
      exact Except.noConfusion h
    · rw [if_neg hemp] at h
      have h2 := Except.ok.inj h
      have hstats := congrArg Prod.snd h2
      constructor
      · have := congrArg MergeStats.perSheetRows hstats
        exact this.symm
      · have := congrArg MergeStats.sheetCount hstats
        exact this.symm

/-- Witness for C10: a workbook whose only sheet cleans to zero rows fails,
    and a successful concrete run reports a count for every sheet. -/
theorem c10_merger_error_and_stats_witness :
    (∃ e, merge_excel_to_parquet_bytes
        [⟨"B".data, ["Unnamed: 0".data], [[some "2".data]]⟩] = Except.error e) ∧
    (⟨2, 1, [("A".data, 1), ("B".data, 0)]⟩ : MergeStats).perSheetRows =
      [⟨"A".data, ["x".data], [[some "1".data]]⟩,
       ⟨"B".data, ["Unnamed: 0".data], [[some "2".data]]⟩].map
        (fun s => (s.name, (cleanedRows s).length)) :=
  ⟨((c10_merger_error_and_stats
      [⟨"B".data, ["Unnamed: 0".data], [[some "2".data]]⟩]).1).mpr (by decide),
   (((c10_merger_error_and_stats
      [⟨"A".data, ["x".data], [[some "1".data]]⟩,
       ⟨"B".data, ["Unnamed: 0".data], [[some "2".data]]⟩]).2)
      [[("x".data, some "1".data)]]
      ⟨2, 1, [("A".data, 1), ("B".data, 0)]⟩ rfl).1⟩

/- ===== gen_gl.py: ZIP walk classification ===== -/

/-- First-biased choice on optional paths. -/
def optOr : Option (List Char) → Option (List Char) → Option (List Char)
  | some a, _ => some a
  | none, b => b

/-- One step of the identification loop over walk entries (root, name):
    hidden files and anything under the macOS metadata folder are skipped, a
    name containing TLF overwrites the reference path, anything else is
    appended to the source list. -/
def classifyStep (st : Option (List Char) × List (List Char))
    (e : List Char × List Char) : Option (List Char) × List (List Char) :=
  if prefixMatch ".".data e.2 = true ∨ containsSub "__MACOSX".data e.1 = true then st
  else if containsSub "TLF".data e.2 = true then (some (joinPath e.1 e.2), st.2)
  else (st.1, st.2 ++ [e.2])

/-- The identification loop of the main ZIP handler. -/
def classifyFiles (entries : List (List Char × List Char)) :
    Option (List Char) × List (List Char) :=
  entries.foldl classifyStep (none, [])

/-- Walk entries that survive the hidden-file and macOS-folder skip. -/
def keptEntries (entries : List (List Char × List Char)) :
    List (List Char × List Char) :=
  entries.filter
    (fun e => !(prefixMatch ".".data e.2 || containsSub "__MACOSX".data e.1))

theorem lastOpt_map_or (f : List Char × List Char → List Char) :
    ∀ (l : List (List Char × List Char)) (x : List Char × List Char),
    (lastOpt x l).map f = optOr ((lastEntry l).map f) (some (f x)) := by
  intro l
  induction l with
  | nil => intro x; rfl
  | cons y ys ih =>
    intro x
    have h1 : (lastOpt x (y :: ys)).map f = (lastOpt y ys).map f := rfl
    rw [h1, ih y]
    have h2 : lastEntry (y :: ys) = lastOpt y ys := rfl
    rw [h2, ih y]
    cases (lastEntry ys).map f with
    | none => rfl
    | some z => rfl

theorem lastEntry_cons_map (f : List Char × List Char → List Char)
    (e : List Char × List Char) (l : List (List Char × List Char)) :
    (lastEntry (e :: l)).map f = optOr ((lastEntry l).map f) (some (f e)) :=
  lastOpt_map_or f l e

theorem classify_foldl : ∀ (entries : List (List Char × List Char)) st,
    entries.foldl classifyStep st =
      (optOr ((lastEntry ((keptEntries entries).filter
            (fun e => containsSub "TLF".data e.2))).map (fun e => joinPath e.1 e.2))
          st.1,
       st.2 ++ ((keptEntries entries).filter
            (fun e => !containsSub "TLF".data e.2)).map Prod.snd) := by
  intro entries
  induction entries with
  | nil => intro st; simp [keptEntries, lastEntry, optOr]
  | cons e rest ih =>
    intro st
    simp only [List.foldl_cons]
    by_cases hskip : prefixMatch ".".data e.2 = true ∨ containsSub "__MACOSX".data e.1 = true
    · have hstep : classifyStep st e = st := by
        simp [classifyStep, hskip]
      rw [hstep, ih st]
      have hkept : keptEntries (e :: rest) = keptEntries rest := by
        simp only [keptEntries, List.filter_cons]
        have : (!(prefixMatch ".".data e.2 || containsSub "__MACOSX".data e.1)) = false := by
          rcases hskip with h | h <;> simp [h]
        rw [this]
        rfl
      rw [hkept]
    · have hkept : keptEntries (e :: rest) = e :: keptEntries rest := by
        simp only [keptEntries, List.filter_cons]
        have : (!(prefixMatch ".".data e.2 || containsSub "__MACOSX".data e.1)) = true := by
          push_neg at hskip
          simp [hskip.1, hskip.2]
        rw [this]
        rfl
      by_cases htlf : containsSub "TLF".data e.2 = true
      · have hstep : classifyStep st e = (some (joinPath e.1 e.2), st.2) := by
          simp [classifyStep, hskip, htlf]
        have hf1 : (e :: keptEntries rest).filter (fun e => containsSub "TLF".data e.2) =
            e :: (keptEntries rest).filter (fun e => containsSub "TLF".data e.2) := by
          rw [List.filter_cons, htlf]
          rfl
        have hf2 : (e :: keptEntries rest).filter (fun e => !containsSub "TLF".data e.2) =
            (keptEntries rest).filter (fun e => !containsSub "TLF".data e.2) := by
          rw [List.filter_cons]
          have hsrc : (!containsSub "TLF".data e.2) = false := by simp [htlf]
          rw [hsrc]
          rfl
        rw [hstep, ih, hkept, hf1, hf2, lastEntry_cons_map]
        refine Prod.ext ?_ rfl
        simp only []
        cases (lastEntry ((keptEntries rest).filter
            (fun e => containsSub "TLF".data e.2))).map (fun e => joinPath e.1 e.2) with
        | none => rfl
        | some z => rfl
      · have hstep : classifyStep st e = (st.1, st.2 ++ [e.2]) := by
          simp [classifyStep, hskip, htlf]
        have hf1 : (e :: keptEntries rest).filter (fun e => containsSub "TLF".data e.2) =
            (keptEntries rest).filter (fun e => containsSub "TLF".data e.2) := by
          rw [List.filter_cons]
          have hb : containsSub "TLF".data e.2 = false := by
            cases hbb : containsSub "TLF".data e.2
            · rfl
            · exact absurd hbb htlf
          rw [hb]
          rfl
        have hf2 : (e :: keptEntries rest).filter (fun e => !containsSub "TLF".data e.2) =
            e :: (keptEntries rest).filter (fun e => !containsSub "TLF".data e.2) := by
          rw [List.filter_cons]
          have hsrc : (!containsSub "TLF".data e.2) = true := by
            cases hbb : containsSub "TLF".data e.2
            · rfl
            · exact absurd hbb htlf
          rw [hsrc]
          rfl
        rw [hstep, ih, hkept, hf1, hf2]
        refine Prod.ext rfl ?_
        simp [List.append_assoc]

/-- C7: among the surviving walk entries, the reference path is the last one
    whose name contains TLF, and the source list holds exactly the names
    without TLF, in walk order. -/
theorem c7_zip_classification (entries : List (List Char × List Char)) :
    (classifyFiles entries).1 =
      (lastEntry ((keptEntries entries).filter
          (fun e => containsSub "TLF".data e.2))).map (fun e => joinPath e.1 e.2) ∧
    (classifyFiles entries).2 =
      ((keptEntries entries).filter
          (fun e => !containsSub "TLF".data e.2)).map Prod.snd := by
  have h := classify_foldl entries (none, [])
  rw [classifyFiles, h]
  constructor
  · cases (lastEntry ((keptEntries entries).filter
        (fun e => containsSub "TLF".data e.2))).map (fun e => joinPath e.1 e.2) with
    | none => rfl
    | some z => rfl
  · rfl

/- ===== app.py: query pages ===== -/

/-- One query tab of the session state. -/
structure QueryPage where
  id : List Char
  title : List Char
  query : List Char
  lastResult : Option (List (List (List Char)))
deriving DecidableEq, Repr

/-- The slice of session state the page operations touch. -/
structure AppState where
  pages : List QueryPage
  activeId : List Char
deriving DecidableEq, Repr

/-- Placeholder page for the index access that is always in bounds. -/
def dummyPage : QueryPage := ⟨[], [], [], none⟩

/-- add_new_page from app.py, with the fresh uuid passed in. -/
def add_new_page (newId : List Char) (s : AppState) : AppState :=
  if 10 ≤ s.pages.length then s
  else
    { pages := s.pages ++ [⟨newId, "Query ".data ++ natChars (s.pages.length + 1),
        "SELECT * FROM database".data, none⟩],
      activeId := newId }

/-- remove_page from app.py; a missing id aborts before the pop, leaving the
    state unchanged. -/
def remove_page (pid : List Char) (s : AppState) : AppState :=
  if s.pages.length ≤ 1 then s
  else
    match s.pages.findIdx? (fun p => decide (p.id = pid)) with
    | none => s
    | some idx =>
      let pages2 := s.pages.eraseIdx idx
      if s.activeId = pid then
        { pages := pages2, activeId := (pages2.getD (idx - 1) dummyPage).id }
      else
        { pages := pages2, activeId := s.activeId }

theorem findIdx?_lt_length (p : QueryPage → Bool) (l : List QueryPage) (idx : Nat)
    (h : l.findIdx? p = some idx) : idx < l.length := by
  obtain ⟨h2, -⟩ := List.findIdx?_eq_some_iff_getElem.mp h
  exact h2

theorem getElem?_eraseIdx_of_lt : ∀ (l : List QueryPage) (i j : Nat), j < i →
    (l.eraseIdx i)[j]? = l[j]? := by
  intro l
  induction l with
  | nil => intro i j hj; simp [List.eraseIdx]
  | cons x xs ih =>
    intro i j hj
    cases i with
    | zero => omega
    | succ i =>
      cases j with
      | zero => simp [List.eraseIdx]
      | succ j =>
        simp only [List.eraseIdx, List.getElem?_cons_succ]
        exact ih i j (by omega)

theorem getElem?_eraseIdx_zero (l : List QueryPage) :
    (l.eraseIdx 0)[0]? = l[1]? := by
  cases l with
  | nil => rfl
  | cons x xs => simp [List.eraseIdx]

theorem remove_page_found (pid : List Char) (s : AppState) (idx : Nat)
    (hc : ¬ s.pages.length ≤ 1)
    (hf : s.pages.findIdx? (fun p => decide (p.id = pid)) = some idx) :
    remove_page pid s =
      (if s.activeId = pid then
        { pages := s.pages.eraseIdx idx,
          activeId := ((s.pages.eraseIdx idx).getD (idx - 1) dummyPage).id }
      else { pages := s.pages.eraseIdx idx, activeId := s.activeId }) := by
  rw [remove_page, if_neg hc]
  simp only [hf]

theorem remove_page_notfound (pid : List Char) (s : AppState)
    (hc : ¬ s.pages.length ≤ 1)
    (hf : s.pages.findIdx? (fun p => decide (p.id = pid)) = none) :
    remove_page pid s = s := by
  rw [remove_page, if_neg hc]
  simp only [hf]

/-- C8: every page operation keeps the page count between one and ten; add
    at ten and remove at one are refused without change; a successful
    removal of the active page moves the active id to the page preceding the
    removed one, or to the new first page when the first one was removed. -/
theorem c8_page_invariants (s : AppState) (newId pid : List Char)
    (hlo : 1 ≤ s.pages.length) (hhi : s.pages.length ≤ 10) :
    (1 ≤ (add_new_page newId s).pages.length ∧
      (add_new_page newId s).pages.length ≤ 10) ∧
    (s.pages.length = 10 → add_new_page newId s = s) ∧
    (1 ≤ (remove_page pid s).pages.length ∧
      (remove_page pid s).pages.length ≤ 10) ∧
    (s.pages.length = 1 → remove_page pid s = s) ∧
    (∀ idx, s.pages.findIdx? (fun p => decide (p.id = pid)) = some idx →
      1 < s.pages.length → s.activeId = pid →
      ((idx = 0 → ∀ p, s.pages[1]? = some p → (remove_page pid s).activeId = p.id) ∧
       (0 < idx → ∀ p, s.pages[idx - 1]? = some p →
          (remove_page pid s).activeId = p.id))) := by
  refine ⟨?_, ?_, ?_, ?_, ?_⟩
  · by_cases hc : 10 ≤ s.pages.length
    · rw [add_new_page, if_pos hc]
      exact ⟨hlo, hhi⟩
    · rw [add_new_page, if_neg hc]
      simp only [List.length_append, List.length_cons, List.length_nil]
      omega
  · intro h10
    rw [add_new_page, if_pos (by omega)]
  · by_cases hc : s.pages.length ≤ 1
    · rw [remove_page, if_pos hc]
      exact ⟨hlo, hhi⟩
    · cases hf : s.pages.findIdx? (fun p => decide (p.id = pid)) with
      | none =>
        rw [remove_page_notfound pid s hc hf]
        exact ⟨hlo, hhi⟩
      | some idx =>
        have hidx := findIdx?_lt_length _ _ _ hf
        have hlen : (s.pages.eraseIdx idx).length = s.pages.length - 1 :=
          List.length_eraseIdx_of_lt hidx
        rw [remove_page_found pid s idx hc hf]
        by_cases ha : s.activeId = pid
        · rw [if_pos ha]
          simp only [hlen]
          omega
        · rw [if_neg ha]
          simp only [hlen]
          omega
  · intro h1
    rw [remove_page, if_pos (by omega)]
  · intro idx hf hgt hact
    have hidx := findIdx?_lt_length _ _ _ hf
    have hrem : remove_page pid s =
        { pages := s.pages.eraseIdx idx,
          activeId := ((s.pages.eraseIdx idx).getD (idx - 1) dummyPage).id } := by
      rw [remove_page_found pid s idx (by omega) hf, if_pos hact]
    constructor
    · intro h0 p hp
      subst h0
      rw [hrem]
      simp only
      rw [List.getD_eq_getElem?_getD, getElem?_eraseIdx_zero, hp]
      rfl
    · intro hpos p hp
      rw [hrem]
      simp only
      rw [List.getD_eq_getElem?_getD,
        getElem?_eraseIdx_of_lt s.pages idx (idx - 1) (by omega), hp]
      rfl

/-- Witness for C8 at a concrete two-page state. -/
theorem c8_page_invariants_witness :
    1 ≤ (add_new_page "n".data
      ⟨[⟨"a".data, "Query 1".data, [], none⟩, ⟨"b".data, "Query 2".data, [], none⟩],
        "b".data⟩).pages.length ∧
    (add_new_page "n".data
      ⟨[⟨"a".data, "Query 1".data, [], none⟩, ⟨"b".data, "Query 2".data, [], none⟩],
        "b".data⟩).pages.length ≤ 10 :=
  (c8_page_invariants
    ⟨[⟨"a".data, "Query 1".data, [], none⟩, ⟨"b".data, "Query 2".data, [], none⟩],
      "b".data⟩ "n".data "b".data (by decide) (by decide)).1

/- ===== app.py: the run handler ===== -/

/-- The run handler of app.py for the active page: strip the query, drop
    trailing semicolons, refuse empty text clearing the last result, append
    the limit clause when no limit substring is present, rename database to
    df, execute, and store the result, or clear it when execution fails. -/
def runSqlHandler (execQ : List Char → Except (List Char) (List (List (List Char))))
    (page : QueryPage) : QueryPage :=
  let q := rstripChar ';' (stripWs page.query)
  if q.isEmpty then { page with lastResult := none }
  else
    let q2 := if containsSub "limit".data (lowerStr q) = true then q
              else q ++ " LIMIT 300".data
    match execQ (replaceAll "database".data "df".data q2) with
    | .ok t => { page with lastResult := some t }
    | .error _ => { page with lastResult := none }

/-- C9: an empty stripped query executes nothing and clears the result; a
    non-empty one executes exactly the stripped text, with the limit clause
    appended exactly when no limit substring occurs, and with database
    renamed to df, storing the result on success and clearing it on
    failure. -/
theorem c9_run_handler (execQ execQ2 : List Char →
      Except (List Char) (List (List (List Char)))) (page : QueryPage) :
    (rstripChar ';' (stripWs page.query) = [] →
      runSqlHandler execQ page = { page with lastResult := none } ∧
      runSqlHandler execQ page = runSqlHandler execQ2 page) ∧
    (rstripChar ';' (stripWs page.query) ≠ [] →
      runSqlHandler execQ page =
        { page with lastResult :=
            (execQ (replaceAll "database".data "df".data
              (rstripChar ';' (stripWs page.query) ++
                (if containsSub "limit".data
                    (lowerStr (rstripChar ';' (stripWs page.query))) = true
                 then [] else " LIMIT 300".data)))).toOption }) := by
  constructor
  · intro hq
    have hemp : (rstripChar ';' (stripWs page.query)).isEmpty = true := by
      rw [hq]
      rfl
    constructor
    · rw [runSqlHandler]
      simp only [hemp]
      rfl
    · rw [runSqlHandler, runSqlHandler]
      simp only [hemp]
      rfl
  · intro hq
    have hemp : (rstripChar ';' (stripWs page.query)).isEmpty = false := by
      cases hc : rstripChar ';' (stripWs page.query) with
      | nil => exact absurd hc hq
      | cons a as => rfl
    rw [runSqlHandler]
    simp only [hemp]
    by_cases hlim : containsSub "limit".data
        (lowerStr (rstripChar ';' (stripWs page.query))) = true
    · rw [if_pos hlim, if_pos hlim, List.append_nil]
      cases hx : execQ (replaceAll "database".data "df".data
          (rstripChar ';' (stripWs page.query))) with
      | ok t => simp [Except.toOption]
      | error e => simp [Except.toOption]
    · rw [if_neg hlim, if_neg hlim]
      cases hx : execQ (replaceAll "database".data "df".data
          (rstripChar ';' (stripWs page.query) ++ " LIMIT 300".data)) with
      | ok t => simp [Except.toOption]
      | error e => simp [Except.toOption]

/-- Witness for C9: a concrete non-empty query is executed with the limit
    clause appended and database renamed, storing the successful result. -/
theorem c9_run_handler_witness :
    runSqlHandler (fun _ => Except.ok [])
        ⟨"p".data, "Q".data, " SELECT * FROM database ; ".data, none⟩ =
      { (⟨"p".data, "Q".data, " SELECT * FROM database ; ".data, none⟩ : QueryPage) with
          lastResult := some [] } := by
  have h := (c9_run_handler (fun _ => Except.ok []) (fun _ => Except.ok [])
      ⟨"p".data, "Q".data, " SELECT * FROM database ; ".data, none⟩).2 (by decide)
  rw [h]
  rfl
